import Mathlib

/-!
Contiki-MakeHelper: path normalisation, descriptor aggregation and template rendering

A shallow embedding of `contiki-makehelper.go`.

A Go `string` is a finite sequence of bytes.  It is represented here by a `List Char`
in which every element stands for one byte (all literals used are ASCII).  The functions
of the program only compare bytes with ASCII constants, slice and concatenate, so every
statement proved for all lists holds in particular for all byte sequences.
-/

namespace MakeHelper

/-- A Go string: a sequence of bytes. -/
abbrev GoString := List Char

/-- The operating systems the Go runtime distinguishes for `os.PathSeparator`. -/
inductive OS where
  | posix
  | windows
  deriving DecidableEq, Repr

/-- The constant `os.PathSeparator`: a slash, except on Windows where it is a backslash. -/
def PathSeparator : OS → Char
  | OS.posix => '/'
  | OS.windows => '\\'

/-- Go `strings.Replace(s, old, new, -1)` for patterns `old`, `new` of one byte each. -/
def ReplaceAll (s : GoString) (old new : Char) : GoString :=
  s.map (fun c => if c = old then new else c)

/-- Go `filepath.ToSlash`: the identity when the separator is a slash, otherwise every
separator is replaced by a slash. -/
def ToSlash (os : OS) (path : GoString) : GoString :=
  if PathSeparator os = '/' then path else ReplaceAll path (PathSeparator os) '/'

/-- The Go slice expression `s[i:j]`. -/
def slice (s : GoString) (i j : Nat) : GoString := (s.take j).drop i

/-- Go `strings.HasPrefix`. -/
def HasPrefix (s pre : GoString) : Bool :=
  decide (pre.length ≤ s.length) && (s.take pre.length == pre)

/-- Go `strings.HasSuffix`. -/
def HasSuffix (s suf : GoString) : Bool :=
  decide (suf.length ≤ s.length) && (s.drop (s.length - suf.length) == suf)

/-- Go `strings.Join`. -/
def Join : List GoString → GoString → GoString
  | [], _ => []
  | [e], _ => e
  | e :: es, sep => es.foldl (fun b s => b ++ sep ++ s) e

/-- The function `ToMsysSlash` of the program. -/
def ToMsysSlash (os : OS) (p : GoString) : GoString :=
  let s := ToSlash os p
  if s.length < 4 then s
  else if slice s 1 3 = ":/".toList then
    let ss := "/".toList
    let ss := ss ++ slice s 0 1
    let ss := ss ++ s.drop 2
    ss
  else s

/-- The type `Command` of the program: one recorded invocation. -/
structure Command where
  Stage : GoString
  Recipe : GoString
  Source : GoString
  Target : GoString
  Flags : List GoString
  BuildPath : GoString
  CorePath : GoString
  SystemPath : GoString
  VariantPath : GoString
  ProjectName : GoString
  ArchiveFile : GoString
  deriving DecidableEq, Repr

/-- The function `select_command`: a loop appending the selected elements. -/
def select_command (slc : List Command) (f : Command → Bool) : List Command :=
  slc.foldl (fun ans x => if f x = true then ans ++ [x] else ans) []

/-- The function `collect_string`: a loop appending the projection of every element. -/
def collect_string (slc : List Command) (f : Command → GoString) : List GoString :=
  slc.foldl (fun ans x => ans ++ [f x]) []

/-- The function `contains`. -/
def contains : List GoString → GoString → Bool
  | [], _ => false
  | a :: s, e => if a = e then true else contains s e

/-! ## The aggregator (recipe `makefile`) -/

/-- The selection made inside the closure `cores_srcs`. -/
def cores_cmds (commands : List Command) (core_path : GoString) : List Command :=
  select_command commands (fun c =>
    HasSuffix c.Recipe ".o".toList && (c.Stage == "core".toList) && HasPrefix c.Source core_path)

/-- The selection made inside the closure `variant_srcs`. -/
def variant_cmds (commands : List Command) (variant_path : GoString) : List Command :=
  select_command commands (fun c =>
    HasSuffix c.Recipe ".o".toList && (c.Stage == "core".toList) && HasPrefix c.Source variant_path)

/-- The selection made inside the closure `libs_srcs`. -/
def libs_cmds (commands : List Command) : List Command :=
  select_command commands (fun c =>
    HasSuffix c.Recipe ".o".toList && (c.Stage == "libraries".toList))

/-- The closure `cores_srcs` of `main`. -/
def cores_srcs (os : OS) (commands : List Command) (core_path : GoString) : GoString :=
  let cores_list := collect_string (cores_cmds commands core_path) (fun c => ToMsysSlash os c.Source)
  "\t".toList ++ Join cores_list " \\\n\t".toList ++ "\n".toList

/-- The closure `variant_srcs` of `main`. -/
def variant_srcs (os : OS) (commands : List Command) (variant_path : GoString) : GoString :=
  let var_list := collect_string (variant_cmds commands variant_path) (fun c => ToMsysSlash os c.Source)
  "\t".toList ++ Join var_list " \\\n\t".toList ++ "\n".toList

/-- The closure `libs_srcs` of `main`. -/
def libs_srcs (os : OS) (commands : List Command) : GoString :=
  let libs_list := collect_string (libs_cmds commands) (fun c => ToMsysSlash os c.Source)
  "\t".toList ++ Join libs_list " \\\n\t".toList ++ "\n".toList

/-- The body of the inner loop of the closure `sketch_flags`: one flag of one descriptor. -/
def sketch_flag_step (os : OS) (flgs : List GoString) (flg : GoString) : List GoString :=
  if !contains flgs flg then
    let flg :=
      if HasPrefix flg "-I".toList || HasPrefix flg "-L".toList then
        slice flg 0 2 ++ ToMsysSlash os (flg.drop 2)
      else flg
    flgs ++ [flg]
  else flgs

/-- The list `flgs` at the end of the two nested loops of the closure `sketch_flags`. -/
def sketch_flgs (os : OS) (commands : List Command) : List GoString :=
  let libcmds := select_command commands (fun c =>
    HasSuffix c.Recipe ".o".toList && (c.Stage == "sketch".toList))
  libcmds.foldl (fun flgs cmd => cmd.Flags.foldl (sketch_flag_step os) flgs) []

/-- The closure `sketch_flags` of `main`. -/
def sketch_flags (os : OS) (commands : List Command) : GoString :=
  Join (sketch_flgs os commands) " ".toList

/-! ## The descriptor file name -/

/-- The part of the descriptor file name derived from target and source: backslashes,
slashes and colons become underscores. -/
def genmf_stem (target source : GoString) : GoString :=
  let genmf := ReplaceAll (target ++ "_".toList ++ source) '\\' '_'
  let genmf := ReplaceAll genmf '/' '_'
  ReplaceAll genmf ':' '_'

/-- The value of `genmf` in `main` after line 408. -/
def genmf (os : OS) (build_path target source recipe : GoString) : GoString :=
  build_path ++ [PathSeparator os] ++ genmf_stem target source ++ ".".toList ++ recipe
    ++ ".genmf".toList

/-- The recipes for which `main` records a descriptor. -/
def recorded (recipe : GoString) : Bool :=
  recipe == "cpp.o".toList || recipe == "c.o".toList || recipe == "S.o".toList
    || recipe == "ar".toList || recipe == "ld".toList

/-! ## The argument grouping of the preprocessing recipes -/

/-- The variables the loop over the trailing arguments updates. -/
structure PreprocState where
  args : List GoString
  includes : List GoString
  flaggroup : GoString
  deriving DecidableEq, Repr

/-- One iteration of the loop over `flags` in the preprocessing branch of `main`. -/
def preproc_step (os : OS) (st : PreprocState) (f : GoString) : PreprocState :=
  if f = "-includes".toList ∨ f = "-make-args".toList then
    { st with flaggroup := f }
  else if st.flaggroup = "-make-args".toList then
    { st with args := st.args ++ [f] }
  else if st.flaggroup = "-includes".toList then
    let f := if HasPrefix f "-I".toList then "-I".toList ++ ToMsysSlash os (f.drop 2) else f
    let includes := st.includes ++ [f]
    { st with includes := includes ++ [f] }
  else
    { st with includes := st.includes ++ [f] }

/-- The pair `(args, includes)` after the loop and the final `append(args, recipe)`. -/
def preproc_groups (os : OS) (build_path recipe : GoString) (flags : List GoString) :
    List GoString × List GoString :=
  let st := flags.foldl (preproc_step os)
    ⟨["-s".toList, "-C".toList, ToMsysSlash os build_path], [], []⟩
  (st.args ++ [recipe], st.includes)

/-! ## The template renderer

The regular expression of `format_makefile` is
`(###\s*<<<)([^>\s]*)(>>>\s*###)`.  At a given start position it has at most one way to
match: a run of `\s` cannot be shortened in favour of `<` or `#`, and a run of `[^>\s]`
cannot be shortened in favour of `>`.  Leftmost-first matching is therefore "the first
position where the greedy match succeeds".  No byte the expression looks for occurs
inside a multi-byte rune, so matching byte by byte agrees with matching rune by rune. -/

/-- The class `\s` of Go regular expressions: tab, line feed, form feed, carriage return
and space. -/
def isSpace (c : Char) : Bool :=
  c = '\t' || c = '\n' || c = '\x0c' || c = '\r' || c = ' '

/-- The class `[^>\s]`. -/
def isNameByte (c : Char) : Bool := !(c = '>' || isSpace c)

/-- The rest of `s` after the literal `lit`, if `s` starts with it. -/
def stripLit (lit : GoString) (s : GoString) : Option GoString :=
  if HasPrefix s lit then some (s.drop lit.length) else none

/-- The three capture groups of one match; the whole match is their concatenation. -/
structure Submatch where
  g1 : GoString
  g2 : GoString
  g3 : GoString
  deriving DecidableEq, Repr

/-- The whole match (capture group 0). -/
def Submatch.g0 (m : Submatch) : GoString := m.g1 ++ m.g2 ++ m.g3

/-- The match of the regular expression that starts at the first byte of `s`, with the
text that follows it. -/
def matchHere (s : GoString) : Option (Submatch × GoString) :=
  match stripLit "###".toList s with
  | none => none
  | some s1 =>
    match stripLit "<<<".toList (s1.dropWhile isSpace) with
    | none => none
    | some s2 =>
      match stripLit ">>>".toList (s2.dropWhile isNameByte) with
      | none => none
      | some s3 =>
        match stripLit "###".toList (s3.dropWhile isSpace) with
        | none => none
        | some s4 =>
          some (⟨"###".toList ++ s1.takeWhile isSpace ++ "<<<".toList,
                 s2.takeWhile isNameByte,
                 ">>>".toList ++ s3.takeWhile isSpace ++ "###".toList⟩, s4)

/-- The first element of `rep.FindAllStringSubmatch(line, -1)`, `none` when the result
is `nil`: the leftmost match. -/
def findFirst : GoString → Option Submatch
  | [] => none
  | c :: cs =>
    match matchHere (c :: cs) with
    | some (m, _) => some m
    | none => findFirst cs

/-- ASCII letters, digits and the underscore. -/
def isWordByte (c : Char) : Bool := c.isAlphanum || c = '_'

/-- The loop of `extract` in Go's `regexp` that measures the name after a dollar sign.
The argument `uni` stands for the Unicode tables: `uni s` is the width in bytes of the
leading rune of `s` when that rune is a letter or digit outside ASCII, and 0 otherwise. -/
def nameLen (uni : GoString → Nat) : Nat → GoString → Nat
  | 0, _ => 0
  | _ + 1, [] => 0
  | fuel + 1, c :: cs =>
    if c.toNat < 128 then
      if isWordByte c then 1 + nameLen uni fuel cs else 0
    else
      let w := min (uni (c :: cs)) (cs.length + 1)
      if w = 0 then 0 else w + nameLen uni fuel (cs.drop (w - 1))

/-- The number a name denotes in `extract`: decimal digits only, below `10^8` before the
last digit is read, and no leading zero. -/
def parseNum (name : GoString) : Option Nat :=
  let num := name.foldl (fun (acc : Option Nat) c =>
    match acc with
    | none => none
    | some n => if c.toNat < '0'.toNat ∨ '9'.toNat < c.toNat ∨ n ≥ 100000000 then none
                else some (n * 10 + (c.toNat - '0'.toNat))) (some 0)
  if name.head? = some '0' ∧ name.length > 1 then none else num

/-- Go `extract`: the name, its number and the rest of the template after a dollar sign;
`none` when the text after the dollar sign is malformed. -/
def extract (uni : GoString → Nat) (str : GoString) :
    Option (GoString × Option Nat × GoString) :=
  if str = [] then none
  else
    let brace : Bool := str.head? = some '{'
    let str := if brace then str.tail else str
    let i := nameLen uni str.length str
    if i = 0 then none
    else
      let name := str.take i
      if brace ∧ (i ≥ str.length ∨ str.get? i ≠ some '}') then none
      else
        let i := if brace then i + 1 else i
        some (name, parseNum name, str.drop i)

/-- Go `Regexp.expand` for this regular expression, which has three unnamed groups:
`$$` is a dollar sign, `$n` (also with `n` in braces) is group `n` when `n ≤ 3`, every
other well-formed reference is empty and a malformed one keeps its dollar sign. -/
def expandAux (uni : GoString → Nat) (m : Submatch) : Nat → GoString → GoString
  | 0, t => t
  | _ + 1, [] => []
  | fuel + 1, c :: t =>
    if c ≠ '$' then c :: expandAux uni m fuel t
    else if t.head? = some '$' then '$' :: expandAux uni m fuel t.tail
    else
      match extract uni t with
      | none => '$' :: expandAux uni m fuel t
      | some (_, num, rest) =>
        (match num with
         | some k => [m.g0, m.g1, m.g2, m.g3].getD k []
         | none => []) ++ expandAux uni m fuel rest

/-- The replacement text for one match. -/
def expand (uni : GoString → Nat) (repl : GoString) (m : Submatch) : GoString :=
  expandAux uni m repl.length repl

/-- The scan of `Regexp.ReplaceAllString`: every match, from left to right, is replaced
by the expansion of `repl`; the text between matches is kept. -/
def replaceAllAux (uni : GoString → Nat) (repl : GoString) : Nat → GoString → GoString
  | 0, s => s
  | _ + 1, [] => []
  | fuel + 1, c :: cs =>
    match matchHere (c :: cs) with
    | some (m, rest) => expand uni repl m ++ replaceAllAux uni repl fuel rest
    | none => c :: replaceAllAux uni repl fuel cs

/-- Go `rep.ReplaceAllString(src, repl)`. -/
def ReplaceAllString (uni : GoString → Nat) (src repl : GoString) : GoString :=
  replaceAllAux uni repl src.length src

/-- A Go `map[string]string`: its entries in the order the `range` loop visits them,
with pairwise different keys. -/
structure GoMap where
  entries : List (GoString × GoString)
  nodup : (entries.map Prod.fst).Nodup

/-- The keys in iteration order. -/
def GoMap.keys (m : GoMap) : List GoString := m.entries.map Prod.fst

/-- The index expression `m[k]`: the empty string for a missing key. -/
def GoMap.get (m : GoMap) (k : GoString) : GoString :=
  match m.entries.find? (fun e => e.1 = k) with
  | some e => e.2
  | none => []

/-- The loop `for k := range replace` of `format_makefile` on the pair `(out, found)`. -/
def format_keys (uni : GoString → Nat) (replace : GoMap) (line name : GoString)
    (acc : GoString × Bool) : GoString × Bool :=
  replace.keys.foldl (fun acc k =>
    if k = name then
      (acc.1 ++ ReplaceAllString uni line (replace.get k) ++ "\n".toList, true)
    else acc) acc

/-- One iteration of the scanner loop of `format_makefile`: `out` after `line`. -/
def format_step (uni : GoString → Nat) (replace : GoMap) (out line : GoString) : GoString :=
  match findFirst line with
  | some m =>
    let r := format_keys uni replace line m.g2 (out, false)
    if r.2 then r.1 else out ++ line ++ "\n".toList
  | none => out ++ line ++ "\n".toList

/-- The function `format_makefile`.  The template file is given by `lines`, the texts
`scanner.Text()` returns in order. -/
def format_makefile (uni : GoString → Nat) (lines : List GoString) (replace : GoMap) :
    GoString :=
  lines.foldl (format_step uni replace) []

/-- The placeholder as the specification words it, `###<<<NAME>>>###` with `NAME` a run
of bytes other than `>` and whitespace and nothing between the marks: the name of such a
placeholder that starts at the first byte of `s`. -/
def specPlaceholderHere (s : GoString) : Option GoString :=
  match stripLit "###<<<".toList s with
  | none => none
  | some s1 =>
    match stripLit ">>>###".toList (s1.dropWhile isNameByte) with
    | none => none
    | some _ => some (s1.takeWhile isNameByte)

/-- The name of the leftmost placeholder of the specification's form in a line, `none`
when the line holds no such placeholder. -/
def specFirstPlaceholder : GoString → Option GoString
  | [] => none
  | c :: cs =>
    match specPlaceholderHere (c :: cs) with
    | some name => some name
    | none => specFirstPlaceholder cs

/-- A descriptor of a compile invocation with the given stage, recipe and source; the
fields the aggregator does not read for source lists are empty. -/
def compileOf (stage recipe source : GoString) (flags : List GoString) : Command :=
  ⟨stage, recipe, source, [], flags, [], [], [], [], [], []⟩

/-- The Unicode tables restricted to ASCII: no rune outside ASCII is a letter or digit. -/
def asciiOnly : GoString → Nat := fun _ => 0

end MakeHelper

namespace MakeHelper

/-! ## Library lemmas -/

theorem foldl_select (f : Command → Bool) (l : List Command) (acc : List Command) :
    l.foldl (fun ans x => if f x = true then ans ++ [x] else ans) acc = acc ++ l.filter f := by
  induction l generalizing acc with
  | nil => simp
  | cons x xs ih =>
    by_cases hx : f x = true
    · simp [List.foldl_cons, ih, hx]
    · simp [List.foldl_cons, ih, hx]

theorem select_command_eq_filter (slc : List Command) (f : Command → Bool) :
    select_command slc f = slc.filter f := by
  simp [select_command, foldl_select]

theorem foldl_collect (f : Command → GoString) (l : List Command) (acc : List GoString) :
    l.foldl (fun ans x => ans ++ [f x]) acc = acc ++ l.map f := by
  induction l generalizing acc with
  | nil => simp
  | cons x xs ih => simp [List.foldl_cons, ih]

theorem collect_string_eq_map (slc : List Command) (f : Command → GoString) :
    collect_string slc f = slc.map f := by
  simp [collect_string, foldl_collect]

theorem foldl_join (sep : GoString) (es : List GoString) (acc : GoString) :
    es.foldl (fun b s => b ++ sep ++ s) acc
      = acc ++ (es.map (fun s => sep ++ s)).flatten := by
  induction es generalizing acc with
  | nil => simp
  | cons x xs ih =>
    simp only [List.foldl_cons, List.map_cons, List.flatten_cons]
    rw [ih]
    simp only [List.append_assoc]

theorem intercalate_cons_cons (sep e : GoString) (es : List GoString) :
    List.intercalate sep (e :: es) = e ++ (es.map (fun s => sep ++ s)).flatten := by
  induction es generalizing e with
  | nil => simp [List.intercalate]
  | cons x xs ih =>
    have h := ih x
    simp only [List.intercalate, List.intersperse, List.flatten_cons, List.map_cons] at h ⊢
    rw [h]
    simp only [List.append_assoc]

theorem Join_eq_intercalate (elems : List GoString) (sep : GoString) :
    Join elems sep = List.intercalate sep elems := by
  match elems with
  | [] => simp [Join, List.intercalate]
  | [e] => simp [Join, List.intercalate]
  | e :: e2 :: es =>
    rw [intercalate_cons_cons]
    simp only [Join]
    rw [foldl_join]

theorem ToSlash_posix (p : GoString) : ToSlash OS.posix p = p := by
  simp [ToSlash, PathSeparator]

theorem ToSlash_windows (p : GoString) :
    ToSlash OS.windows p = ReplaceAll p '\\' '/' := by
  simp [ToSlash, PathSeparator]

theorem ToSlash_length (os : OS) (p : GoString) : (ToSlash os p).length = p.length := by
  cases os <;> simp [ToSlash, PathSeparator, ReplaceAll]

theorem ToSlash_cons (os : OS) (c : Char) (p : GoString) (hc : c ≠ '\\') :
    ToSlash os (c :: p) = c :: ToSlash os p := by
  cases os <;> simp [ToSlash, PathSeparator, ReplaceAll, hc]

theorem ToSlash_of_no_backslash (os : OS) (p : GoString) (h : '\\' ∉ p) :
    ToSlash os p = p := by
  cases os
  · exact ToSlash_posix p
  · rw [ToSlash_windows]
    unfold ReplaceAll
    conv_rhs => rw [← List.map_id p]
    apply List.map_congr_left
    intro c hc
    have : c ≠ '\\' := fun e => h (e ▸ hc)
    simp [this]

end MakeHelper

namespace MakeHelper

/-! ## Path normalisation -/

/-- C9. A path without backslashes that is shorter than four bytes, or whose second and
third bytes are not a colon and a slash, is returned unchanged by `ToMsysSlash`. -/
theorem ToMsysSlash_unchanged (os : OS) (p : GoString) (hfs : '\\' ∉ p)
    (h : p.length < 4 ∨ slice p 1 3 ≠ ":/".toList) : ToMsysSlash os p = p := by
  unfold ToMsysSlash
  simp only [ToSlash_of_no_backslash os p hfs]
  rcases h with h | h
  · simp [h]
  · have h2 : slice p 1 3 ≠ [':', '/'] := h
    simp [h2]

/-- C9 (instance). The statement above at a concrete input. -/
theorem ToMsysSlash_unchanged_witness :
    ('\\' ∉ "lib/a.c".toList ∧ ("lib/a.c".toList.length < 4 ∨ slice "lib/a.c".toList 1 3 ≠ ":/".toList))
      ∧ ToMsysSlash OS.windows "lib/a.c".toList = "lib/a.c".toList :=
  ⟨⟨by decide, Or.inr (by decide)⟩,
   ToMsysSlash_unchanged OS.windows "lib/a.c".toList (by decide) (Or.inr (by decide))⟩

/-- C8 (counterexample). The path `C:/foo/bar` is normalised to `/C/foo/bar`, with the
drive letter in upper case as given, and not to `/c/foo/bar`. -/
theorem ToMsysSlash_keeps_case :
    ToMsysSlash OS.posix "C:/foo/bar".toList = "/C/foo/bar".toList
      ∧ ToMsysSlash OS.windows "C:/foo/bar".toList = "/C/foo/bar".toList
      ∧ ToMsysSlash OS.posix "C:/foo/bar".toList ≠ "/c/foo/bar".toList
      ∧ ToMsysSlash OS.windows "C:/foo/bar".toList ≠ "/c/foo/bar".toList := by
  decide

/-- C8 (amended). For a drive letter `d` and a non-empty remainder `r`, the path
`d:/r` is normalised to a slash, the drive letter `d` itself, a slash and `r` with its
separators turned into slashes. -/
theorem ToMsysSlash_drive (os : OS) (d : Char) (r : GoString)
    (hd : d.isAlpha = true) (hr : r ≠ []) :
    ToMsysSlash os (d :: ':' :: '/' :: r) = '/' :: d :: '/' :: ToSlash os r := by
  have hd2 : d ≠ '\\' := by
    intro e
    rw [e] at hd
    exact absurd hd (by decide)
  have hlen : ¬ ((ToSlash os r).length + 1 + 1 + 1 < 4) := by
    have : 0 < r.length := List.length_pos.mpr hr
    rw [ToSlash_length]
    omega
  unfold ToMsysSlash
  rw [ToSlash_cons os d _ hd2, ToSlash_cons os ':' _ (by decide),
    ToSlash_cons os '/' _ (by decide)]
  simp [slice, hlen]

/-- C8 (instance). The statement above at a concrete input. -/
theorem ToMsysSlash_drive_witness :
    ('D'.isAlpha = true ∧ "work\\x.c".toList ≠ [])
      ∧ ToMsysSlash OS.windows ('D' :: ':' :: '/' :: "work\\x.c".toList)
          = '/' :: 'D' :: '/' :: ToSlash OS.windows "work\\x.c".toList :=
  ⟨⟨by decide, by decide⟩,
   ToMsysSlash_drive OS.windows 'D' "work\\x.c".toList (by decide) (by decide)⟩

/-! ## Source lists of the aggregator -/

/-- C1. The core-sources block is a tab, the normalised sources of the descriptors with
a recipe ending in `.o`, stage `core` and a source under the core root, in list order
and joined by space, backslash, newline, tab, then a newline; the library-sources block
is formed the same way from the descriptors with a recipe ending in `.o` and stage
`libraries`.  For two core compiles under `/core` and one library compile the blocks
list the two core paths and the one library path. -/
theorem sources_blocks (os : OS) (commands : List Command) (core_path : GoString) :
    cores_srcs os commands core_path
        = "\t".toList
          ++ List.intercalate " \\\n\t".toList
              ((commands.filter (fun c => HasSuffix c.Recipe ".o".toList
                  && (c.Stage == "core".toList) && HasPrefix c.Source core_path)).map
                (fun c => ToMsysSlash os c.Source))
          ++ "\n".toList
      ∧ libs_srcs os commands
        = "\t".toList
          ++ List.intercalate " \\\n\t".toList
              ((commands.filter (fun c => HasSuffix c.Recipe ".o".toList
                  && (c.Stage == "libraries".toList))).map
                (fun c => ToMsysSlash os c.Source))
          ++ "\n".toList
      ∧ cores_srcs os
          [compileOf "core".toList "c.o".toList "/core/a.c".toList [],
           compileOf "libraries".toList "cpp.o".toList "/libs/x.cpp".toList [],
           compileOf "core".toList "cpp.o".toList "/core/b.cpp".toList []]
          "/core".toList
        = "\t/core/a.c \\\n\t/core/b.cpp\n".toList
      ∧ libs_srcs os
          [compileOf "core".toList "c.o".toList "/core/a.c".toList [],
           compileOf "libraries".toList "cpp.o".toList "/libs/x.cpp".toList [],
           compileOf "core".toList "cpp.o".toList "/core/b.cpp".toList []]
        = "\t/libs/x.cpp\n".toList := by
  refine ⟨?_, ?_, ?_, ?_⟩
  · simp only [cores_srcs, cores_cmds, select_command_eq_filter, collect_string_eq_map,
      Join_eq_intercalate]
  · simp only [libs_srcs, libs_cmds, select_command_eq_filter, collect_string_eq_map,
      Join_eq_intercalate]
  · cases os <;> decide
  · cases os <;> decide

/-- C2 (counterexample). A core-stage compile whose source lies under neither root is
selected into neither list, and one whose source lies under both roots into both. -/
theorem core_variant_not_partition :
    (compileOf "core".toList "c.o".toList "/other/x.c".toList []
        ∉ cores_cmds [compileOf "core".toList "c.o".toList "/other/x.c".toList []] "/core".toList
      ∧ compileOf "core".toList "c.o".toList "/other/x.c".toList []
        ∉ variant_cmds [compileOf "core".toList "c.o".toList "/other/x.c".toList []]
            "/variant".toList)
    ∧ (compileOf "core".toList "c.o".toList "/hw/variants/v/pins.c".toList []
        ∈ cores_cmds [compileOf "core".toList "c.o".toList "/hw/variants/v/pins.c".toList []]
            "/hw".toList
      ∧ compileOf "core".toList "c.o".toList "/hw/variants/v/pins.c".toList []
        ∈ variant_cmds [compileOf "core".toList "c.o".toList "/hw/variants/v/pins.c".toList []]
            "/hw/variants/v".toList) := by
  decide

/-- C2 (amended). A loaded descriptor with a recipe ending in `.o` and stage `core` is
selected into the core-sources list exactly when its source starts with the core root,
and into the variant-sources list exactly when its source starts with the variant root;
so it is in exactly one of the two lists exactly when its source starts with exactly one
of the two roots. -/
theorem core_variant_selection (commands : List Command) (core_path variant_path : GoString)
    (c : Command) (hc : c ∈ commands) (ho : HasSuffix c.Recipe ".o".toList = true)
    (hs : c.Stage = "core".toList) :
    (c ∈ cores_cmds commands core_path ↔ HasPrefix c.Source core_path = true)
      ∧ (c ∈ variant_cmds commands variant_path ↔ HasPrefix c.Source variant_path = true)
      ∧ ((c ∈ cores_cmds commands core_path ∧ c ∉ variant_cmds commands variant_path
            ∨ c ∉ cores_cmds commands core_path ∧ c ∈ variant_cmds commands variant_path)
          ↔ (HasPrefix c.Source core_path = true ∧ HasPrefix c.Source variant_path = false
            ∨ HasPrefix c.Source core_path = false ∧ HasPrefix c.Source variant_path = true)) := by
  have ho2 : HasSuffix c.Recipe ['.', 'o'] = true := ho
  have h1 : c ∈ cores_cmds commands core_path ↔ HasPrefix c.Source core_path = true := by
    simp [cores_cmds, select_command_eq_filter, List.mem_filter, hc, ho2, hs]
  have h2 : c ∈ variant_cmds commands variant_path
      ↔ HasPrefix c.Source variant_path = true := by
    simp [variant_cmds, select_command_eq_filter, List.mem_filter, hc, ho2, hs]
  refine ⟨h1, h2, ?_⟩
  rw [h1, h2]
  simp only [Bool.not_eq_true]

/-- C2 (instance). The statement above at a concrete input. -/
theorem core_variant_selection_witness :
    (compileOf "core".toList "c.o".toList "/core/a.c".toList []
        ∈ [compileOf "core".toList "c.o".toList "/core/a.c".toList []]
      ∧ HasSuffix (compileOf "core".toList "c.o".toList "/core/a.c".toList []).Recipe
          ".o".toList = true
      ∧ (compileOf "core".toList "c.o".toList "/core/a.c".toList []).Stage = "core".toList)
    ∧ (compileOf "core".toList "c.o".toList "/core/a.c".toList []
          ∈ cores_cmds [compileOf "core".toList "c.o".toList "/core/a.c".toList []]
              "/core".toList
        ↔ HasPrefix (compileOf "core".toList "c.o".toList "/core/a.c".toList []).Source
            "/core".toList = true) :=
  ⟨⟨by decide, by decide, by decide⟩,
   (core_variant_selection [compileOf "core".toList "c.o".toList "/core/a.c".toList []]
     "/core".toList "/variant".toList
     (compileOf "core".toList "c.o".toList "/core/a.c".toList [])
     (by decide) (by decide) (by decide)).1⟩

end MakeHelper

namespace MakeHelper

/-! ## Descriptor file names -/

theorem recorded_cases (r : GoString) (h : recorded r = true) :
    r = "cpp.o".toList ∨ r = "c.o".toList ∨ r = "S.o".toList ∨ r = "ar".toList
      ∨ r = "ld".toList := by
  simp only [recorded, Bool.or_eq_true, beq_iff_eq] at h
  tauto

theorem stem_recipe_inj (x y r1 r2 : GoString) (h1 : recorded r1 = true)
    (h2 : recorded r2 = true) (h : x ++ '.' :: r1 = y ++ '.' :: r2) : x = y ∧ r1 = r2 := by
  have hr := congrArg List.reverse h
  rcases recorded_cases r1 h1 with e1 | e1 | e1 | e1 | e1 <;>
    rcases recorded_cases r2 h2 with e2 | e2 | e2 | e2 | e2 <;>
    subst e1 <;> subst e2 <;> simp at hr <;> simp [hr]

/-- C7 (counterexample). Two invocations with different targets, one containing a slash
where the other has an underscore, get the same descriptor file name. -/
theorem genmf_collision :
    ("out/a.o".toList, "src/a.c".toList, "c.o".toList)
        ≠ ("out_a.o".toList, "src/a.c".toList, "c.o".toList)
      ∧ genmf OS.posix "/build".toList "out/a.o".toList "src/a.c".toList "c.o".toList
        = genmf OS.posix "/build".toList "out_a.o".toList "src/a.c".toList "c.o".toList
      ∧ genmf OS.windows "/build".toList "out/a.o".toList "src/a.c".toList "c.o".toList
        = genmf OS.windows "/build".toList "out_a.o".toList "src/a.c".toList "c.o".toList := by
  decide

/-- C7 (amended). For one build path and two invocations with recorded recipes, the
descriptor file names are equal exactly when the recipes are equal and the texts
`target_source` agree after every backslash, slash and colon is replaced by an
underscore. -/
theorem genmf_eq_iff (os : OS) (build_path t1 s1 r1 t2 s2 r2 : GoString)
    (h1 : recorded r1 = true) (h2 : recorded r2 = true) :
    genmf os build_path t1 s1 r1 = genmf os build_path t2 s2 r2
      ↔ genmf_stem t1 s1 = genmf_stem t2 s2 ∧ r1 = r2 := by
  constructor
  · intro h
    unfold genmf at h
    simp only [List.append_assoc, List.append_cancel_left_eq] at h
    have h3 : genmf_stem t1 s1 ++ '.' :: r1 = genmf_stem t2 s2 ++ '.' :: r2 := by
      have h4 : (genmf_stem t1 s1 ++ '.' :: r1) ++ ".genmf".toList
          = (genmf_stem t2 s2 ++ '.' :: r2) ++ ".genmf".toList := by
        simpa [List.append_assoc] using h
      exact List.append_cancel_right h4
    exact stem_recipe_inj _ _ _ _ h1 h2 h3
  · rintro ⟨hs, hr⟩
    unfold genmf
    rw [hs, hr]

/-- C7 (instance). The statement above at a concrete input. -/
theorem genmf_eq_iff_witness :
    (recorded "c.o".toList = true ∧ recorded "cpp.o".toList = true)
      ∧ (genmf OS.windows "C:\\b".toList "a.o".toList "a.c".toList "c.o".toList
            = genmf OS.windows "C:\\b".toList "a.o".toList "a.c".toList "cpp.o".toList
          ↔ genmf_stem "a.o".toList "a.c".toList = genmf_stem "a.o".toList "a.c".toList
              ∧ "c.o".toList = "cpp.o".toList) :=
  ⟨⟨by decide, by decide⟩,
   genmf_eq_iff OS.windows "C:\\b".toList "a.o".toList "a.c".toList "c.o".toList
     "a.o".toList "a.c".toList "cpp.o".toList (by decide) (by decide)⟩

/-! ## Sketch flags and preprocessing arguments -/

/-- C3 (failing input). Two sketch compiles that both carry the flag `-IC:/lib/inc`
yield the normalised flag `-I/C/lib/inc` twice: the membership test is made on the flag
as given, the list holds the flag as normalised.  On the flags of the example in the
claim the list has no repetition. -/
theorem sketch_flags_repeat :
    sketch_flgs OS.windows
        [compileOf "sketch".toList "cpp.o".toList "C:/s/a.cpp".toList ["-IC:/lib/inc".toList],
         compileOf "sketch".toList "cpp.o".toList "C:/s/b.cpp".toList ["-IC:/lib/inc".toList]]
      = ["-I/C/lib/inc".toList, "-I/C/lib/inc".toList]
    ∧ sketch_flgs OS.posix
        [compileOf "sketch".toList "cpp.o".toList "C:/s/a.cpp".toList ["-IC:/lib/inc".toList],
         compileOf "sketch".toList "cpp.o".toList "C:/s/b.cpp".toList ["-IC:/lib/inc".toList]]
      = ["-I/C/lib/inc".toList, "-I/C/lib/inc".toList]
    ∧ sketch_flgs OS.windows
        [compileOf "sketch".toList "cpp.o".toList "a.cpp".toList ["-Ix".toList, "-O2".toList],
         compileOf "sketch".toList "cpp.o".toList "b.cpp".toList ["-O2".toList, "-Iy".toList]]
      = ["-Ix".toList, "-O2".toList, "-Iy".toList] := by
  decide

/-- C10 (failing input). For the trailing arguments `-make-args V=1 -includes -IC:/inc`
the make arguments are `-s -C <build path> V=1 <recipe>`, and the include tokens hold
the normalised token `-I/C/inc` twice; a token before the first marker also lands among
the include tokens. -/
theorem preproc_includes_doubled :
    preproc_groups OS.windows "C:/b".toList "preproc.includes".toList
        ["-make-args".toList, "V=1".toList, "-includes".toList, "-IC:/inc".toList]
      = (["-s".toList, "-C".toList, "/C/b".toList, "V=1".toList, "preproc.includes".toList],
         ["-I/C/inc".toList, "-I/C/inc".toList])
    ∧ preproc_groups OS.posix "/b".toList "preproc.macros".toList
        ["-DX".toList, "-includes".toList, "-Iinc".toList]
      = (["-s".toList, "-C".toList, "/b".toList, "preproc.macros".toList],
         ["-DX".toList, "-Iinc".toList, "-Iinc".toList]) := by
  decide

end MakeHelper

namespace MakeHelper

/-! ## The regular expression -/

theorem takeWhile_append_stop (p : Char → Bool) (l : GoString) (c : Char) (r : GoString)
    (hl : ∀ x ∈ l, p x = true) (hc : p c = false) :
    (l ++ c :: r).takeWhile p = l := by
  induction l with
  | nil => simp [List.takeWhile, hc]
  | cons x xs ih =>
    have hx : p x = true := hl x (List.mem_cons_self _ _)
    have hxs : ∀ y ∈ xs, p y = true := fun y hy => hl y (List.mem_cons_of_mem _ hy)
    simp [List.takeWhile, hx, ih hxs]

theorem dropWhile_append_stop (p : Char → Bool) (l : GoString) (c : Char) (r : GoString)
    (hl : ∀ x ∈ l, p x = true) (hc : p c = false) :
    (l ++ c :: r).dropWhile p = c :: r := by
  induction l with
  | nil => simp [List.dropWhile, hc]
  | cons x xs ih =>
    have hx : p x = true := hl x (List.mem_cons_self _ _)
    have hxs : ∀ y ∈ xs, p y = true := fun y hy => hl y (List.mem_cons_of_mem _ hy)
    simp [List.dropWhile, hx, ih hxs]

theorem stripLit_append (lit s : GoString) : stripLit lit (lit ++ s) = some s := by
  simp [stripLit, HasPrefix]

theorem stripLit_head_ne (c d : Char) (lit s : GoString) (h : c ≠ d) :
    stripLit (d :: lit) (c :: s) = none := by
  simp [stripLit, HasPrefix, h]

theorem matchHere_head_ne (c : Char) (s : GoString) (h : c ≠ '#') :
    matchHere (c :: s) = none := by
  have : stripLit "###".toList (c :: s) = none := stripLit_head_ne c '#' _ s h
  unfold matchHere
  rw [this]

/-- The placeholder `###<<<name>>>###` followed by `post` matches at its first byte, with
`name` as the second group and `post` left over. -/
theorem matchHere_placeholder (name post : GoString)
    (hname : ∀ c ∈ name, isNameByte c = true) :
    matchHere ("###<<<".toList ++ name ++ ">>>###".toList ++ post)
      = some (⟨"###<<<".toList, name, ">>>###".toList⟩, post) := by
  have e1 : "###<<<".toList ++ name ++ ">>>###".toList ++ post
      = "###".toList ++ ("<<<".toList ++ (name ++ '>' :: (">>###".toList ++ post))) := by
    simp
  have d1 : ("<<<".toList ++ (name ++ '>' :: (">>###".toList ++ post))).dropWhile isSpace
      = "<<<".toList ++ (name ++ '>' :: (">>###".toList ++ post)) := by
    simp [List.dropWhile, isSpace]
  have t1 : ("<<<".toList ++ (name ++ '>' :: (">>###".toList ++ post))).takeWhile isSpace
      = [] := by
    simp [List.takeWhile, isSpace]
  have d2 : (name ++ '>' :: (">>###".toList ++ post)).dropWhile isNameByte
      = ">>>".toList ++ ("###".toList ++ post) :=
    dropWhile_append_stop isNameByte name '>' _ hname (by decide)
  have t2 : (name ++ '>' :: (">>###".toList ++ post)).takeWhile isNameByte = name :=
    takeWhile_append_stop isNameByte name '>' _ hname (by decide)
  have d3 : ("###".toList ++ post).dropWhile isSpace = "###".toList ++ post := by
    simp [List.dropWhile, isSpace]
  have t3 : ("###".toList ++ post).takeWhile isSpace = [] := by
    simp [List.takeWhile, isSpace]
  rw [e1]
  unfold matchHere
  simp only [stripLit_append, d1, t1, d2, t2, d3, t3]
  rfl

theorem findFirst_skip (pre s : GoString) (hpre : '#' ∉ pre) :
    findFirst (pre ++ s) = findFirst s := by
  induction pre with
  | nil => rfl
  | cons c cs ih =>
    have hc : c ≠ '#' := fun e => hpre (e ▸ List.mem_cons_self _ _)
    have hcs : '#' ∉ cs := fun h => hpre (List.mem_cons_of_mem _ h)
    simp [findFirst, matchHere_head_ne c _ hc, ih hcs]

theorem findFirst_of_matchHere (s : GoString) (m : Submatch) (rest : GoString)
    (h : matchHere s = some (m, rest)) : findFirst s = some m := by
  cases s with
  | nil => simp [matchHere, stripLit, HasPrefix] at h
  | cons c cs => simp [findFirst, h]

theorem replaceAllAux_no_hash (uni : GoString → Nat) (repl : GoString) (fuel : Nat)
    (s : GoString) (hs : '#' ∉ s) : replaceAllAux uni repl fuel s = s := by
  induction s generalizing fuel with
  | nil => cases fuel <;> rfl
  | cons c cs ih =>
    cases fuel with
    | zero => rfl
    | succ n =>
      have hc : c ≠ '#' := fun e => hs (e ▸ List.mem_cons_self _ _)
      have hcs : '#' ∉ cs := fun h => hs (List.mem_cons_of_mem _ h)
      simp [replaceAllAux, matchHere_head_ne c _ hc, ih n hcs]

theorem replaceAllAux_skip (uni : GoString → Nat) (repl : GoString) (pre s : GoString)
    (fuel : Nat) (hpre : '#' ∉ pre) :
    replaceAllAux uni repl (pre.length + fuel) (pre ++ s)
      = pre ++ replaceAllAux uni repl fuel s := by
  induction pre with
  | nil => simp
  | cons c cs ih =>
    have hc : c ≠ '#' := fun e => hpre (e ▸ List.mem_cons_self _ _)
    have hcs : '#' ∉ cs := fun h => hpre (List.mem_cons_of_mem _ h)
    have e : (c :: cs).length + fuel = (cs.length + fuel) + 1 := by
      simp only [List.length_cons]; omega
    rw [e]
    simp [replaceAllAux, matchHere_head_ne c _ hc, ih hcs]

theorem replaceAllAux_match (uni : GoString → Nat) (repl : GoString) (fuel : Nat)
    (c : Char) (cs : GoString) (m : Submatch) (rest : GoString)
    (h : matchHere (c :: cs) = some (m, rest)) :
    replaceAllAux uni repl (fuel + 1) (c :: cs)
      = expand uni repl m ++ replaceAllAux uni repl fuel rest := by
  simp only [replaceAllAux, h]

theorem stripLit_length (lit s r : GoString) (h : stripLit lit s = some r) :
    r.length + lit.length = s.length := by
  unfold stripLit at h
  by_cases hp : HasPrefix s lit = true
  · rw [if_pos hp] at h
    have hr : s.drop lit.length = r := Option.some.inj h
    have hle : lit.length ≤ s.length := by
      simp only [HasPrefix, Bool.and_eq_true, decide_eq_true_eq] at hp
      exact hp.1
    rw [← hr, List.length_drop]
    omega
  · rw [if_neg hp] at h
    cases h

theorem dropWhile_length_le (p : Char → Bool) (s : GoString) :
    (s.dropWhile p).length ≤ s.length := by
  induction s with
  | nil => simp
  | cons c cs ih =>
    by_cases hc : p c = true
    · simp only [List.dropWhile, hc, List.length_cons]; omega
    · simp [List.dropWhile, hc]

theorem stripLit_eq (lit s r : GoString) (h : stripLit lit s = some r) : s = lit ++ r := by
  unfold stripLit at h
  by_cases hp : HasPrefix s lit = true
  · rw [if_pos hp] at h
    have hr : s.drop lit.length = r := Option.some.inj h
    simp only [HasPrefix, Bool.and_eq_true, decide_eq_true_eq, beq_iff_eq] at hp
    rw [← hr]
    conv_lhs => rw [← List.take_append_drop lit.length s]
    rw [hp.2]
  · rw [if_neg hp] at h
    cases h

theorem takeWhile_all (p : Char → Bool) (s : GoString) :
    ∀ c ∈ s.takeWhile p, p c = true := by
  intro c hc
  exact (List.mem_takeWhile_imp hc)

/-- What the matcher accepts: `###`, a run of whitespace, `<<<`, a name of bytes other
than `>` and whitespace, `>>>`, a run of whitespace and `###`, followed by the rest. -/
theorem matchHere_sound (s : GoString) (m : Submatch) (rest : GoString)
    (h : matchHere s = some (m, rest)) :
    ∃ ws1 ws2 : GoString, (∀ c ∈ ws1, isSpace c = true) ∧ (∀ c ∈ ws2, isSpace c = true)
      ∧ (∀ c ∈ m.g2, isNameByte c = true)
      ∧ m.g1 = "###".toList ++ ws1 ++ "<<<".toList
      ∧ m.g3 = ">>>".toList ++ ws2 ++ "###".toList
      ∧ s = m.g1 ++ m.g2 ++ m.g3 ++ rest := by
  unfold matchHere at h
  cases h1 : stripLit "###".toList s with
  | none => rw [h1] at h; cases h
  | some s1 =>
    rw [h1] at h
    cases h2 : stripLit "<<<".toList (s1.dropWhile isSpace) with
    | none => simp only [h2] at h; cases h
    | some s2 =>
      simp only [h2] at h
      cases h3 : stripLit ">>>".toList (s2.dropWhile isNameByte) with
      | none => simp only [h3] at h; cases h
      | some s3 =>
        simp only [h3] at h
        cases h4 : stripLit "###".toList (s3.dropWhile isSpace) with
        | none => simp only [h4] at h; cases h
        | some s4 =>
          simp only [h4, Option.some.injEq, Prod.mk.injEq] at h
          obtain ⟨hm, hrest⟩ := h
          subst hm
          subst hrest
          refine ⟨s1.takeWhile isSpace, s3.takeWhile isSpace, takeWhile_all _ _,
            takeWhile_all _ _, takeWhile_all _ _, rfl, rfl, ?_⟩
          have e1 := stripLit_eq _ _ _ h1
          have e2 := stripLit_eq _ _ _ h2
          have e3 := stripLit_eq _ _ _ h3
          have e4 := stripLit_eq _ _ _ h4
          have t1 := List.takeWhile_append_dropWhile isSpace s1
          have t2 := List.takeWhile_append_dropWhile isNameByte s2
          have t3 := List.takeWhile_append_dropWhile isSpace s3
          rw [e4] at t3
          rw [e3] at t2
          rw [e2] at t1
          have e : s = "###".toList ++ (s1.takeWhile isSpace ++ ("<<<".toList
              ++ (s2.takeWhile isNameByte ++ (">>>".toList
              ++ (s3.takeWhile isSpace ++ ("###".toList ++ s4)))))) := by
            rw [t3, t2, t1]
            exact e1
          simp only [List.append_assoc]
          exact e

/-- A match is not empty: the text left after it is shorter than the text it starts in. -/
theorem matchHere_rest_length (s : GoString) (m : Submatch) (rest : GoString)
    (h : matchHere s = some (m, rest)) : rest.length < s.length := by
  unfold matchHere at h
  cases h1 : stripLit "###".toList s with
  | none => rw [h1] at h; cases h
  | some s1 =>
    rw [h1] at h
    cases h2 : stripLit "<<<".toList (s1.dropWhile isSpace) with
    | none => simp only [h2] at h; cases h
    | some s2 =>
      simp only [h2] at h
      cases h3 : stripLit ">>>".toList (s2.dropWhile isNameByte) with
      | none => simp only [h3] at h; cases h
      | some s3 =>
        simp only [h3] at h
        cases h4 : stripLit "###".toList (s3.dropWhile isSpace) with
        | none => simp only [h4] at h; cases h
        | some s4 =>
          simp only [h4, Option.some.injEq, Prod.mk.injEq] at h
          have l1 := stripLit_length _ _ _ h1
          have l2 := stripLit_length _ _ _ h2
          have l3 := stripLit_length _ _ _ h3
          have l4 := stripLit_length _ _ _ h4
          have d1 := dropWhile_length_le isSpace s1
          have d2 := dropWhile_length_le isNameByte s2
          have d3 := dropWhile_length_le isSpace s3
          have e3 : "###".toList.length = 3 := rfl
          rw [← h.2]
          omega

/-- The scan of `ReplaceAllString` never runs out of steps: every bound that is at
least the length of the text gives the same result. -/
theorem replaceAllAux_fuel (uni : GoString → Nat) (repl : GoString) (f1 f2 : Nat)
    (s : GoString) (h1 : s.length ≤ f1) (h2 : s.length ≤ f2) :
    replaceAllAux uni repl f1 s = replaceAllAux uni repl f2 s := by
  induction f1 generalizing f2 s with
  | zero =>
    have hs : s = [] := List.length_eq_zero.mp (Nat.le_zero.mp h1)
    subst hs
    cases f2 <;> rfl
  | succ n ih =>
    cases s with
    | nil => cases f2 <;> rfl
    | cons c cs =>
      cases f2 with
      | zero => simp at h2
      | succ k =>
        simp only [List.length_cons, Nat.add_le_add_iff_right] at h1 h2
        cases hm : matchHere (c :: cs) with
        | none =>
          simp only [replaceAllAux, hm]
          rw [ih k cs h1 h2]
        | some mr =>
          obtain ⟨m, rest⟩ := mr
          have hl := matchHere_rest_length _ _ _ hm
          simp only [List.length_cons] at hl
          simp only [replaceAllAux, hm]
          rw [ih k rest (by omega) (by omega)]

theorem extract_rest_length (uni : GoString → Nat) (t name rest : GoString)
    (num : Option Nat) (h : extract uni t = some (name, num, rest)) :
    rest.length ≤ t.length := by
  unfold extract at h
  by_cases hb : List.head? t = some '{'
  · simp only [hb, decide_True, if_true] at h
    split_ifs at h
    simp only [Option.some.injEq, Prod.mk.injEq] at h
    rw [← h.2.2, List.length_drop, List.length_tail]
    omega
  · simp only [hb, decide_False, Bool.false_eq_true, if_false, false_and] at h
    split_ifs at h
    simp only [Option.some.injEq, Prod.mk.injEq] at h
    rw [← h.2.2, List.length_drop]
    omega

/-- The loop of `expand` never runs out of steps: every bound that is at least the
length of the template gives the same result. -/
theorem expandAux_fuel (uni : GoString → Nat) (m : Submatch) (f1 f2 : Nat)
    (t : GoString) (h1 : t.length ≤ f1) (h2 : t.length ≤ f2) :
    expandAux uni m f1 t = expandAux uni m f2 t := by
  induction f1 generalizing f2 t with
  | zero =>
    have hs : t = [] := List.length_eq_zero.mp (Nat.le_zero.mp h1)
    subst hs
    cases f2 <;> rfl
  | succ n ih =>
    cases t with
    | nil => cases f2 <;> rfl
    | cons c cs =>
      cases f2 with
      | zero => simp at h2
      | succ k =>
        simp only [List.length_cons, Nat.add_le_add_iff_right] at h1 h2
        by_cases hc : c ≠ '$'
        · simp only [expandAux, hc, ne_eq, not_false_eq_true, if_true]
          rw [ih k cs h1 h2]
        · by_cases hd : cs.head? = some '$'
          · simp only [expandAux, hc, hd, if_true, if_false]
            rw [ih k cs.tail (by simp only [List.length_tail]; omega)
              (by simp only [List.length_tail]; omega)]
          · cases he : extract uni cs with
            | none =>
              simp only [expandAux, hc, hd, he, if_false]
              rw [ih k cs h1 h2]
            | some r =>
              obtain ⟨name, num, rest⟩ := r
              have hl := extract_rest_length uni cs name rest num he
              simp only [expandAux, hc, hd, he, if_false]
              rw [ih k rest (by omega) (by omega)]

theorem expandAux_no_dollar (uni : GoString → Nat) (m : Submatch) (fuel : Nat)
    (t : GoString) (ht : '$' ∉ t) : expandAux uni m fuel t = t := by
  induction t generalizing fuel with
  | nil => cases fuel <;> rfl
  | cons c cs ih =>
    cases fuel with
    | zero => rfl
    | succ n =>
      have hc : c ≠ '$' := fun e => ht (e ▸ List.mem_cons_self _ _)
      have hcs : '$' ∉ cs := fun h => ht (List.mem_cons_of_mem _ h)
      simp [expandAux, hc, ih n hcs]

/-- A replacement text without a dollar sign is inserted as it is. -/
theorem expand_no_dollar (uni : GoString → Nat) (repl : GoString) (m : Submatch)
    (h : '$' ∉ repl) : expand uni repl m = repl :=
  expandAux_no_dollar uni m _ repl h

/-- In a line made of `pre`, one placeholder and `post`, with no `#` in `pre` and `post`,
`ReplaceAllString` puts the expansion of `repl` in the place of the placeholder. -/
theorem ReplaceAllString_placeholder (uni : GoString → Nat) (pre name post repl : GoString)
    (hpre : '#' ∉ pre) (hpost : '#' ∉ post) (hname : ∀ c ∈ name, isNameByte c = true) :
    ReplaceAllString uni (pre ++ ("###<<<".toList ++ name ++ ">>>###".toList ++ post)) repl
      = pre ++ expand uni repl ⟨"###<<<".toList, name, ">>>###".toList⟩ ++ post := by
  unfold ReplaceAllString
  rw [List.length_append, replaceAllAux_skip uni repl pre _ _ hpre]
  have hm := matchHere_placeholder name post hname
  have hl : ("###<<<".toList ++ name ++ ">>>###".toList ++ post).length
      = (name.length + post.length + 11) + 1 := by
    simp; omega
  rw [hl]
  have hcons : "###<<<".toList ++ name ++ ">>>###".toList ++ post
      = '#' :: ("##<<<".toList ++ name ++ ">>>###".toList ++ post) := by simp
  rw [hcons] at hm ⊢
  rw [replaceAllAux_match uni repl _ _ _ _ _ hm, replaceAllAux_no_hash uni repl _ post hpost]
  simp only [List.append_assoc]

end MakeHelper

namespace MakeHelper

/-! ## The template renderer -/

theorem foldl_keys_miss (g : GoString → GoString) (name : GoString) (ks : List GoString)
    (acc : GoString × Bool) (h : name ∉ ks) :
    ks.foldl (fun acc k => if k = name then (acc.1 ++ g k ++ "\n".toList, true) else acc) acc
      = acc := by
  induction ks generalizing acc with
  | nil => rfl
  | cons k ks ih =>
    have hk : k ≠ name := fun e => h (e ▸ List.mem_cons_self _ _)
    have hks : name ∉ ks := fun hm => h (List.mem_cons_of_mem _ hm)
    simp only [List.foldl_cons, if_neg hk]
    exact ih acc hks

theorem foldl_keys_hit (g : GoString → GoString) (name : GoString) (ks : List GoString)
    (acc : GoString × Bool) (hn : ks.Nodup) (h : name ∈ ks) :
    ks.foldl (fun acc k => if k = name then (acc.1 ++ g k ++ "\n".toList, true) else acc) acc
      = (acc.1 ++ g name ++ "\n".toList, true) := by
  induction ks generalizing acc with
  | nil => cases h
  | cons k ks ih =>
    rw [List.nodup_cons] at hn
    by_cases hk : k = name
    · subst hk
      simp only [List.foldl_cons, if_true]
      exact foldl_keys_miss g k ks _ hn.1
    · have hks : name ∈ ks := by
        rcases List.mem_cons.mp h with e | e
        · exact absurd e.symm hk
        · exact e
      simp only [List.foldl_cons, if_neg hk]
      exact ih acc hn.2 hks

theorem GoMap.get_of_mem (m : GoMap) (k v : GoString) (h : (k, v) ∈ m.entries) :
    m.get k = v := by
  obtain ⟨entries, nodup⟩ := m
  simp only [GoMap.get]
  induction entries with
  | nil => cases h
  | cons e es ih =>
    simp only [List.map_cons, List.nodup_cons] at nodup
    rcases List.mem_cons.mp h with e1 | e1
    · subst e1
      simp [List.find?]
    · have hne : e.1 ≠ k := by
        intro e2
        apply nodup.1
        rw [e2]
        exact List.mem_map.mpr ⟨(k, v), e1, rfl⟩
      simp only [List.find?, hne, decide_False]
      exact ih nodup.2 e1

theorem GoMap.key_of_mem (m : GoMap) (k v : GoString) (h : (k, v) ∈ m.entries) :
    k ∈ m.keys :=
  List.mem_map.mpr ⟨(k, v), h, rfl⟩

/-- A line without a match, or whose first match names no key, is appended unchanged. -/
theorem format_step_pass (uni : GoString → Nat) (replace : GoMap) (out line : GoString)
    (h : findFirst line = none ∨ ∃ m, findFirst line = some m ∧ m.g2 ∉ replace.keys) :
    format_step uni replace out line = out ++ line ++ "\n".toList := by
  unfold format_step
  rcases h with h | ⟨m, hm, hk⟩
  · rw [h]
  · rw [hm]
    simp only [format_keys]
    rw [foldl_keys_miss (fun k => ReplaceAllString uni line (replace.get k)) m.g2
      replace.keys (out, false) hk]
    simp

/-- A line whose first match names a key is appended with every match replaced by the
expansion of the value of that key. -/
theorem format_step_subst (uni : GoString → Nat) (replace : GoMap) (out line : GoString)
    (m : Submatch) (hm : findFirst line = some m) (hk : m.g2 ∈ replace.keys) :
    format_step uni replace out line
      = out ++ ReplaceAllString uni line (replace.get m.g2) ++ "\n".toList := by
  unfold format_step
  rw [hm]
  simp only [format_keys]
  rw [foldl_keys_hit (fun k => ReplaceAllString uni line (replace.get k)) m.g2
    replace.keys (out, false) replace.nodup hk]
  simp

theorem format_step_out (uni : GoString → Nat) (replace : GoMap) (out line : GoString) :
    format_step uni replace out line = out ++ format_step uni replace [] line := by
  cases hf : findFirst line with
  | none =>
    rw [format_step_pass uni replace out line (Or.inl hf),
      format_step_pass uni replace [] line (Or.inl hf)]
    simp
  | some m =>
    by_cases hk : m.g2 ∈ replace.keys
    · rw [format_step_subst uni replace out line m hf hk,
        format_step_subst uni replace [] line m hf hk]
      simp
    · rw [format_step_pass uni replace out line (Or.inr ⟨m, hf, hk⟩),
        format_step_pass uni replace [] line (Or.inr ⟨m, hf, hk⟩)]
      simp

theorem foldl_format_step_out (uni : GoString → Nat) (replace : GoMap)
    (lines : List GoString) (out : GoString) :
    lines.foldl (format_step uni replace) out
      = out ++ lines.foldl (format_step uni replace) [] := by
  induction lines generalizing out with
  | nil => simp
  | cons l ls ih =>
    simp only [List.foldl_cons]
    rw [ih (format_step uni replace out l), ih (format_step uni replace [] l),
      format_step_out uni replace out l]
    simp only [List.append_assoc]

/-- The output for a template is the output for its first lines, followed by the output
for the next line, followed by the output for the remaining lines. -/
theorem format_makefile_split (uni : GoString → Nat) (replace : GoMap)
    (before after : List GoString) (line : GoString) :
    format_makefile uni (before ++ line :: after) replace
      = format_makefile uni before replace ++ format_step uni replace [] line
        ++ format_makefile uni after replace := by
  unfold format_makefile
  rw [List.foldl_append, List.foldl_cons, foldl_format_step_out uni replace after,
    format_step_out uni replace (before.foldl (format_step uni replace) []) line]

/-- C5 (counterexample). The line `### <<<FOO>>> ###` holds no placeholder of the form
`###<<<NAME>>>###`, yet with a table that has the key `FOO` it is rendered as the value
of `FOO`; and in the line `### <<<FOO>>> ### ###<<<BAR>>>###` the first placeholder of
that form is named `BAR`, which is not a key, yet the line is rendered as `x x`. -/
theorem format_makefile_spaced_placeholder :
    (specFirstPlaceholder "### <<<FOO>>> ###".toList = none
      ∧ format_makefile asciiOnly ["### <<<FOO>>> ###".toList]
          (GoMap.mk [("FOO".toList, "bar".toList)] (by decide))
        = "bar\n".toList
      ∧ format_makefile asciiOnly ["### <<<FOO>>> ###".toList]
          (GoMap.mk [("FOO".toList, "bar".toList)] (by decide))
        ≠ "### <<<FOO>>> ###".toList ++ "\n".toList)
    ∧ (specFirstPlaceholder "### <<<FOO>>> ### ###<<<BAR>>>###".toList = some "BAR".toList
      ∧ "BAR".toList ∉ (GoMap.mk [("FOO".toList, "x".toList)] (by decide)).keys
      ∧ format_makefile asciiOnly ["### <<<FOO>>> ### ###<<<BAR>>>###".toList]
          (GoMap.mk [("FOO".toList, "x".toList)] (by decide))
        = "x x\n".toList
      ∧ format_makefile asciiOnly ["### <<<FOO>>> ### ###<<<BAR>>>###".toList]
          (GoMap.mk [("FOO".toList, "x".toList)] (by decide))
        ≠ "### <<<FOO>>> ### ###<<<BAR>>>###".toList ++ "\n".toList) := by
  decide

/-- C5 (amended). A template line in which the regular expression of the renderer finds
no placeholder (`###`, optional whitespace, `<<<NAME>>>`, optional whitespace, `###`), or
whose first such placeholder has a name that is not a key of the table, is emitted
unchanged and followed by a newline, at its place in the output. -/
theorem format_makefile_passthrough (uni : GoString → Nat) (replace : GoMap)
    (before after : List GoString) (line : GoString)
    (h : findFirst line = none ∨ ∃ m, findFirst line = some m ∧ m.g2 ∉ replace.keys) :
    format_makefile uni (before ++ line :: after) replace
      = format_makefile uni before replace ++ (line ++ "\n".toList)
        ++ format_makefile uni after replace := by
  rw [format_makefile_split, format_step_pass uni replace [] line h]
  simp

/-- C5 (instance). The statement above at a concrete input. -/
theorem format_makefile_passthrough_witness :
    (findFirst "CFLAGS += ###<<<FOO>>>###".toList = none
        ∨ ∃ m, findFirst "CFLAGS += ###<<<FOO>>>###".toList = some m
            ∧ m.g2 ∉ (GoMap.mk [("BAR".toList, "x".toList)] (by decide)).keys)
      ∧ format_makefile asciiOnly
          (["all:".toList] ++ "CFLAGS += ###<<<FOO>>>###".toList :: ["".toList])
          (GoMap.mk [("BAR".toList, "x".toList)] (by decide))
        = format_makefile asciiOnly ["all:".toList]
            (GoMap.mk [("BAR".toList, "x".toList)] (by decide))
          ++ ("CFLAGS += ###<<<FOO>>>###".toList ++ "\n".toList)
          ++ format_makefile asciiOnly ["".toList]
            (GoMap.mk [("BAR".toList, "x".toList)] (by decide)) :=
  ⟨Or.inr ⟨⟨"###<<<".toList, "FOO".toList, ">>>###".toList⟩, by decide, by decide⟩,
   format_makefile_passthrough asciiOnly (GoMap.mk [("BAR".toList, "x".toList)] (by decide))
     ["all:".toList] ["".toList] "CFLAGS += ###<<<FOO>>>###".toList
     (Or.inr ⟨⟨"###<<<".toList, "FOO".toList, ">>>###".toList⟩, by decide, by decide⟩)⟩

/-- C4 (failing input). With the table that maps `FOO` to `-I`, a dollar sign, `HOME` in
braces and `/inc`, the template whose only line is `###<<<FOO>>>###` is rendered as
`-I/inc` and a newline: the reference after the dollar sign is expanded, here to
nothing.  With the value `$2` the line is rendered as the name `FOO`. -/
theorem format_makefile_dollar (uni : GoString → Nat) :
    format_makefile uni ["###<<<FOO>>>###".toList]
        (GoMap.mk [("FOO".toList, "-I${HOME}/inc".toList)] (by decide))
      = "-I/inc\n".toList
    ∧ format_makefile uni ["###<<<FOO>>>###".toList]
        (GoMap.mk [("FOO".toList, "$2".toList)] (by decide))
      = "FOO\n".toList :=
  ⟨rfl, rfl⟩

/-- C6 (counterexample). The line `CFLAGS += ###<<<FOO>>>###` is rendered with the table
that maps `FOO` to `bar` as `CFLAGS += bar`: the text before the placeholder stays. -/
theorem format_makefile_keeps_surrounding :
    format_makefile asciiOnly ["CFLAGS += ###<<<FOO>>>### # flags".toList]
        (GoMap.mk [("FOO".toList, "bar".toList)] (by decide))
      = "CFLAGS += bar # flags\n".toList
    ∧ format_makefile asciiOnly ["CFLAGS += ###<<<FOO>>>### # flags".toList]
        (GoMap.mk [("FOO".toList, "bar".toList)] (by decide))
      ≠ "bar\n".toList := by
  decide

/-- C6 (amended). For a line made of a text `pre`, the placeholder `###<<<name>>>###` and
a text `post`, where `pre` and `post` hold no `#`, and a table that maps `name` to a
value `v` without a dollar sign, the text emitted for the line is `pre`, `v`, `post` and
a newline: the placeholder alone is replaced. -/
theorem format_makefile_in_place (uni : GoString → Nat) (replace : GoMap)
    (pre name post v : GoString) (hpre : '#' ∉ pre) (hpost : '#' ∉ post)
    (hname : ∀ c ∈ name, isNameByte c = true) (hv : '$' ∉ v)
    (hmem : (name, v) ∈ replace.entries) :
    format_makefile uni [pre ++ ("###<<<".toList ++ name ++ ">>>###".toList ++ post)] replace
      = pre ++ v ++ post ++ "\n".toList := by
  have hfirst : findFirst (pre ++ ("###<<<".toList ++ name ++ ">>>###".toList ++ post))
      = some ⟨"###<<<".toList, name, ">>>###".toList⟩ := by
    rw [findFirst_skip pre _ hpre]
    exact findFirst_of_matchHere _ _ post (matchHere_placeholder name post hname)
  have hstep := format_step_subst uni replace [] _ _ hfirst (GoMap.key_of_mem replace name v hmem)
  simp only [format_makefile, List.foldl_cons, List.foldl_nil]
  rw [hstep, GoMap.get_of_mem replace name v hmem,
    ReplaceAllString_placeholder uni pre name post v hpre hpost hname,
    expand_no_dollar uni v _ hv]
  simp

/-- C6 (instance). The statement above at a concrete input. -/
theorem format_makefile_in_place_witness :
    ('#' ∉ "SRCS = ".toList ∧ '#' ∉ " main.c".toList
        ∧ (∀ c ∈ "ARDUINO_CORES_SRCS".toList, isNameByte c = true)
        ∧ '$' ∉ "a.c".toList
        ∧ ("ARDUINO_CORES_SRCS".toList, "a.c".toList)
            ∈ (GoMap.mk [("ARDUINO_CORES_SRCS".toList, "a.c".toList)] (by decide)).entries)
      ∧ format_makefile asciiOnly
          ["SRCS = ".toList
            ++ ("###<<<".toList ++ "ARDUINO_CORES_SRCS".toList ++ ">>>###".toList
                ++ " main.c".toList)]
          (GoMap.mk [("ARDUINO_CORES_SRCS".toList, "a.c".toList)] (by decide))
        = "SRCS = ".toList ++ "a.c".toList ++ " main.c".toList ++ "\n".toList :=
  ⟨⟨by decide, by decide, by decide, by decide, by decide⟩,
   format_makefile_in_place asciiOnly
     (GoMap.mk [("ARDUINO_CORES_SRCS".toList, "a.c".toList)] (by decide))
     "SRCS = ".toList "ARDUINO_CORES_SRCS".toList " main.c".toList "a.c".toList
     (by decide) (by decide) (by decide) (by decide) (by decide)⟩

end MakeHelper
